import Mathlib

/-!
Shallow embedding of witnessmenow/ESP32-fluid-simulation.

Source of authority: `src/ESP32-fluid-simulation/ESP32-fluid-simulation.ino`.
The repository's headers (`Field.h`, `Vector.h`, `operations.h`) are not in
`src/`, so the grid data type and the numeric operators are modelled from the
spec (each such definition carries a doc comment starting `Modelled from the
spec:`).  Floating-point values are modelled as rationals (`ℚ`); float
tolerance claims are settled by exact equality of the rational model.
-/

namespace Fluid

/-- Modelled from the spec: the boundary policies of `Field.h` (the `.ino`
uses the constants `NEGATIVE`, `CLONE`, `DONTCARE`). -/
inductive BC where
  | NEGATIVE
  | CLONE
  | DONTCARE
deriving DecidableEq

/-- Modelled from the spec: `Vector` of `Vector.h` is a 2-component value
with component-wise addition; we model it as a pair of rationals,
first component `x` (varies along columns), second component `y`
(varies along rows). -/
abbrev Vector : Type := ℚ × ℚ

/-- Modelled from the spec: `Field<T>` of `Field.h` — an interior of
`rows × cols` cells surrounded by one ring of ghost cells, with a boundary
policy fixed at construction.  `val i j` is the content of cell `(i, j)`;
interior cells are `0 ≤ i < rows`, `0 ≤ j < cols`, and the ghost ring lives
at `i ∈ {-1, rows}` or `j ∈ {-1, cols}`.  The total function `val` stands
for the contiguous `(rows+2) × (cols+2)` buffer; indices outside the buffer
are never read by any operator below. -/
structure Field (T : Type) where
  rows : ℤ
  cols : ℤ
  bc : BC
  val : ℤ → ℤ → T

/-- Interior-cell predicate of a field. -/
def Field.interior {T : Type} (f : Field T) (i j : ℤ) : Prop :=
  0 ≤ i ∧ i < f.rows ∧ 0 ≤ j ∧ j < f.cols

instance {T : Type} (f : Field T) (i j : ℤ) : Decidable (f.interior i j) := by
  unfold Field.interior; infer_instance

/-- Modelled from the spec: how the `NEGATIVE` (mirror-negate) policy acts on
a cell value of each component type.  A ghost cell on a row boundary negates
the boundary-normal (row-direction, `y`) component; a ghost cell on a column
boundary negates the column-direction (`x`) component.  Scalar fields never
use the `NEGATIVE` policy, so the scalar instance is the identity. -/
class BoundaryReflect (T : Type) where
  rowGhost : T → T
  colGhost : T → T

instance : BoundaryReflect ℚ := ⟨fun t => t, fun t => t⟩

instance : BoundaryReflect Vector :=
  ⟨fun v => (v.1, -v.2), fun v => (-v.1, v.2)⟩

/-- Ghost-ring update rule shared by the two active policies: each edge ghost
cell is computed from the adjacent interior cell by the given rule; all other
cells (interior, and the four corner ghosts, which the spec leaves
unspecified) are untouched. -/
def ghostVal {T : Type} (rowRule colRule : T → T) (f : Field T) (i j : ℤ) : T :=
  if i = -1 ∧ 0 ≤ j ∧ j < f.cols then rowRule (f.val 0 j)
  else if i = f.rows ∧ 0 ≤ j ∧ j < f.cols then rowRule (f.val (f.rows - 1) j)
  else if j = -1 ∧ 0 ≤ i ∧ i < f.rows then colRule (f.val i 0)
  else if j = f.cols ∧ 0 ≤ i ∧ i < f.rows then colRule (f.val i (f.cols - 1))
  else f.val i j

/-- Modelled from the spec: `Field<T>::update_boundary()` — recomputes every
edge ghost cell per the active policy (`CLONE` copies the adjacent interior
value, `NEGATIVE` mirror-negates it, `DONTCARE` leaves the field alone). -/
def Field.update_boundary {T : Type} [BoundaryReflect T] (f : Field T) : Field T :=
  if f.bc = BC.CLONE then { f with val := ghostVal (fun t => t) (fun t => t) f }
  else if f.bc = BC.NEGATIVE then
    { f with val := ghostVal BoundaryReflect.rowGhost BoundaryReflect.colGhost f }
  else f

/-- Write one cell of a field, leaving all other cells unchanged (models an
assignment through `Field::index(i, j)`). -/
def Field.set {T : Type} (f : Field T) (i j : ℤ) (t : T) : Field T :=
  { f with val := fun a b => if a = i ∧ b = j then t else f.val a b }

/-- Clamp a coordinate to the valid sampling interval `[lo, hi]`. -/
def clampQ (lo hi q : ℚ) : ℚ := max lo (min hi q)

/-- Bilinear interpolation of `src` at the (row, col) position `(pi, pj)`:
take the four grid cells around the position and blend them by the
fractional offsets. -/
def bilerp {T : Type} [AddCommMonoid T] [Module ℚ T]
    (src : Field T) (pi pj : ℚ) : T :=
  let i0 : ℤ := ⌊pi⌋
  let j0 : ℤ := ⌊pj⌋
  let fi : ℚ := pi - (i0 : ℚ)
  let fj : ℚ := pj - (j0 : ℚ)
  ((1 - fi) * (1 - fj)) • src.val i0 j0 + ((1 - fi) * fj) • src.val i0 (j0 + 1) +
    (fi * (1 - fj)) • src.val (i0 + 1) j0 + (fi * fj) • src.val (i0 + 1) (j0 + 1)

/-- Modelled from the spec: `semilagrangian_advect(dest, src, velocity, dt)`
of `operations.h` — for each interior cell, back-trace the position
`(i, j) − velocity(i, j)·dt`, clamp it to the valid sampling domain
(half a cell into the ghost ring), bilinearly interpolate `src` there, and
write the result into the destination's interior.  The destination is a
fresh field, so non-interior cells keep the source's values until the
caller refreshes the boundary. -/
def semilagrangian_advect {T : Type} [AddCommMonoid T] [Module ℚ T]
    (src : Field T) (velocity : Field Vector) (dt : ℚ) : Field T :=
  { src with
    val := fun i j =>
      if src.interior i j then
        bilerp src
          (clampQ (-(1/2)) ((src.rows : ℚ) - 1/2) ((i : ℚ) - (velocity.val i j).2 * dt))
          (clampQ (-(1/2)) ((src.cols : ℚ) - 1/2) ((j : ℚ) - (velocity.val i j).1 * dt))
      else src.val i j }

/-- Modelled from the spec: `divergence(dst, velocity)` of `operations.h` —
central differences of the velocity components across the four neighbours:
`(vx(i,j+1) − vx(i,j−1))/2 + (vy(i+1,j) − vy(i−1,j))/2`.  `dst` is a fresh
`DONTCARE` field whose ghost ring is never read; we model its non-interior
cells as `0`. -/
def divergence (velocity : Field Vector) : Field ℚ :=
  { rows := velocity.rows, cols := velocity.cols, bc := BC.DONTCARE,
    val := fun i j =>
      if 0 ≤ i ∧ i < velocity.rows ∧ 0 ≤ j ∧ j < velocity.cols then
        ((velocity.val i (j + 1)).1 - (velocity.val i (j - 1)).1) / 2 +
          ((velocity.val (i + 1) j).2 - (velocity.val (i - 1) j).2) / 2
      else 0 }

/-- Row-major list of the interior cell coordinates of a `rows × cols` grid. -/
def interiorCells (rows cols : ℤ) : List (ℤ × ℤ) :=
  (List.range rows.toNat).flatMap fun i =>
    (List.range cols.toNat).map fun j => (Int.ofNat i, Int.ofNat j)

/-- One in-place Gauss-Seidel relaxation cell update for the discrete Poisson
equation `Δ p = div`: `p(i,j) ← (p(i−1,j) + p(i+1,j) + p(i,j−1) + p(i,j+1) − div(i,j)) / 4`. -/
def gsCell (d : Field ℚ) (p : Field ℚ) (i j : ℤ) : Field ℚ :=
  p.set i j
    ((p.val (i - 1) j + p.val (i + 1) j + p.val i (j - 1) + p.val i (j + 1) -
        d.val i j) / 4)

/-- One full in-place Gauss-Seidel sweep over the interior in row-major
order, followed by a refresh of the pressure field's Clone boundary. -/
def gsSweep (d : Field ℚ) (p : Field ℚ) : Field ℚ :=
  ((interiorCells p.rows p.cols).foldl (fun q c => gsCell d q c.1 c.2) p).update_boundary

/-- Modelled from the spec: `gauss_seidel_pressure(pressure, divergence)` of
`operations.h` — relax a freshly zero/Clone-initialized pressure field
against the divergence for a sweep budget `K` (the exact budget is a tunable
the spec leaves open, so it is a parameter here). -/
def gauss_seidel_pressure (d : Field ℚ) (K : ℕ) : Field ℚ :=
  (gsSweep d)^[K] { rows := d.rows, cols := d.cols, bc := BC.CLONE, val := fun _ _ => 0 }

/-- Modelled from the spec: `gradient_and_subtract(velocity, pressure)` of
`operations.h` — subtract the central-difference pressure gradient from each
interior velocity cell. -/
def gradient_and_subtract (velocity : Field Vector) (p : Field ℚ) : Field Vector :=
  { velocity with
    val := fun i j =>
      if velocity.interior i j then
        velocity.val i j -
          ((p.val i (j + 1) - p.val i (j - 1)) / 2,
            (p.val (i + 1) j - p.val (i - 1) j) / 2)
      else velocity.val i j }

/-! Build-time constants of the sketch (`.ino` lines 9-14). -/

def N_ROWS : ℤ := 80
def N_COLS : ℤ := 60
def DT : ℚ := 1 / 10

/-- The forcing delta `dv = Vector<float>({0, 10})` of `.ino` line 103. -/
def dv : Vector := (0, 10)

/-- The four-cell centred forcing of `.ino` lines 102-109: when the external
boolean input is asserted (`digitalRead(0) == LOW`), add `dv` to the four
cells around the domain centre; otherwise leave the velocity field alone. -/
def forceStep (pressed : Bool) (v : Field Vector) : Field Vector :=
  let ci : ℤ := N_ROWS / 2
  let cj : ℤ := N_COLS / 2
  if pressed then
    let v1 := v.set ci cj (v.val ci cj + dv)
    let v2 := v1.set (ci + 1) cj (v1.val (ci + 1) cj + dv)
    let v3 := v2.set ci (cj + 1) (v2.val ci (cj + 1) + dv)
    v3.set (ci + 1) (cj + 1) (v3.val (ci + 1) (cj + 1) + dv)
  else v

/-- The diagnostic scan of `.ino` lines 165-171: fold over the interior in
row-major order keeping the largest absolute divergence seen so far,
starting from `0`. -/
def maxAbsInterior (d : Field ℚ) : ℚ :=
  (interiorCells d.rows d.cols).foldl
    (fun m c => if |d.val c.1 c.2| > m then |d.val c.1 c.2| else m) 0

/-- The per-tick mutable state of `sim_routine`: the velocity field, the
three colour fields, the last tick's diagnostic (`current_abs_pct_density`)
and the running maximum (`max_abs_pct_density`). -/
structure SimState where
  velocity : Field Vector
  red : Field ℚ
  green : Field ℚ
  blue : Field ℚ
  current : ℚ
  maxPct : ℚ

/-- One iteration of `sim_routine` (`.ino` lines 86-217), minus telemetry
printing: self-advect the velocity, apply the optional centred forcing,
project out divergence with a `K`-sweep pressure solve, advect the three
colour channels with the new velocity, and recompute the divergence
diagnostic.  Boundary refreshes follow the spec's protocol (after any bulk
interior write). -/
def simTick (pressed : Bool) (K : ℕ) (s : SimState) : SimState :=
  let v1 := (semilagrangian_advect s.velocity s.velocity DT).update_boundary
  let v2 := forceStep pressed v1
  let d := divergence v2
  let p := gauss_seidel_pressure d K
  let v3 := (gradient_and_subtract v2 p).update_boundary
  let r := (semilagrangian_advect s.red v3 DT).update_boundary
  let g := (semilagrangian_advect s.green v3 DT).update_boundary
  let b := (semilagrangian_advect s.blue v3 DT).update_boundary
  let nd := divergence v3
  let cur := 100 * maxAbsInterior nd * DT
  { velocity := v3, red := r, green := g, blue := b, current := cur,
    maxPct := if cur > s.maxPct then cur else s.maxPct }

/-! ## Basic lemmas about the embedding -/

lemma rowGhost_vector (v : Vector) : BoundaryReflect.rowGhost v = (v.1, -v.2) := rfl

lemma colGhost_vector (v : Vector) : BoundaryReflect.colGhost v = (-v.1, v.2) := rfl

lemma rowGhost_rat (q : ℚ) : BoundaryReflect.rowGhost q = q := rfl

lemma colGhost_rat (q : ℚ) : BoundaryReflect.colGhost q = q := rfl

/-- Clamping fixes the coordinate of an interior cell. -/
lemma clampQ_intCast {n i : ℤ} (h0 : 0 ≤ i) (h1 : i < n) :
    clampQ (-(1/2)) ((n : ℚ) - 1/2) (i : ℚ) = (i : ℚ) := by
  have hle : (i : ℚ) ≤ (n : ℚ) - 1 := by
    have : (i : ℚ) + 1 ≤ (n : ℚ) := by exact_mod_cast h1
    linarith
  have h0' : (0 : ℚ) ≤ (i : ℚ) := by exact_mod_cast h0
  unfold clampQ
  rw [min_eq_right (by linarith), max_eq_right (by linarith)]

/-- Bilinear interpolation at an exact grid point returns the stored value. -/
lemma bilerp_intCast {T : Type} [AddCommMonoid T] [Module ℚ T]
    (src : Field T) (i j : ℤ) :
    bilerp src (i : ℚ) (j : ℚ) = src.val i j := by
  simp [bilerp, Int.floor_intCast]

/-- Claim C6: `semilagrangian_advect` applied with a velocity field that is
zero at every cell is the identity on the interior: for every interior cell,
the destination equals the source (exactly, in the rational model). -/
theorem advect_zero_velocity_identity {T : Type} [AddCommMonoid T] [Module ℚ T]
    (src : Field T) (velocity : Field Vector) (dt : ℚ)
    (hv : ∀ i j, velocity.val i j = 0)
    (i j : ℤ) (h : src.interior i j) :
    (semilagrangian_advect src velocity dt).val i j = src.val i j := by
  obtain ⟨h0i, h1i, h0j, h1j⟩ := h
  have hx : (velocity.val i j).1 = 0 := by rw [hv i j]; rfl
  have hy : (velocity.val i j).2 = 0 := by rw [hv i j]; rfl
  show (if src.interior i j then _ else _) = _
  rw [if_pos ⟨h0i, h1i, h0j, h1j⟩, hx, hy]
  norm_num
  rw [clampQ_intCast h0i h1i, clampQ_intCast h0j h1j, bilerp_intCast]

/-- Witness for C6 on a concrete 1×1 grid. -/
def srcW : Field ℚ := ⟨1, 1, BC.CLONE, fun i j => (i : ℚ) + 2 * (j : ℚ) + 7⟩

/-- Witness velocity field: identically zero. -/
def velW : Field Vector := ⟨1, 1, BC.NEGATIVE, fun _ _ => 0⟩

theorem advect_zero_velocity_identity_witness :
    (∀ i j, velW.val i j = 0) ∧ srcW.interior 0 0 ∧
      (semilagrangian_advect srcW velW (1/10)).val 0 0 = srcW.val 0 0 :=
  ⟨fun _ _ => rfl, by decide,
    advect_zero_velocity_identity srcW velW (1/10) (fun _ _ => rfl) 0 0 (by decide)⟩

/-- Claim C5: `divergence` writes, into every interior cell `(i, j)` of the
destination, the central-difference divergence
`(vx(i,j+1) − vx(i,j−1))/2 + (vy(i+1,j) − vy(i−1,j))/2` of the velocity
field's four neighbours of that cell. -/
theorem divergence_central_difference (v : Field Vector) (i j : ℤ)
    (h : (divergence v).interior i j) :
    (divergence v).val i j =
      ((v.val i (j + 1)).1 - (v.val i (j - 1)).1) / 2 +
        ((v.val (i + 1) j).2 - (v.val (i - 1) j).2) / 2 := by
  obtain ⟨h0i, h1i, h0j, h1j⟩ := h
  show (if _ then _ else _) = _
  rw [if_pos]
  exact ⟨h0i, h1i, h0j, h1j⟩

/-- Witness velocity field for C5. -/
def velW5 : Field Vector := ⟨1, 1, BC.NEGATIVE, fun i j => ((i : ℚ), (j : ℚ))⟩

theorem divergence_central_difference_witness :
    (divergence velW5).interior 0 0 ∧
      (divergence velW5).val 0 0 =
        ((velW5.val 0 1).1 - (velW5.val 0 (-1)).1) / 2 +
          ((velW5.val 1 0).2 - (velW5.val (-1) 0).2) / 2 :=
  ⟨by decide, divergence_central_difference velW5 0 0 (by decide)⟩

/-- Claim C4: after `update_boundary()`, every edge ghost cell of a
Mirror-negate (`NEGATIVE`) field equals the adjacent interior cell with the
boundary-normal component negated, and every edge ghost cell of a `CLONE`
field equals the adjacent interior value exactly. -/
theorem update_boundary_policy
    (fv : Field Vector) (hv : fv.bc = BC.NEGATIVE) (hvr : 0 < fv.rows) (hvc : 0 < fv.cols)
    (fs : Field ℚ) (hs : fs.bc = BC.CLONE) (hsr : 0 < fs.rows) (hsc : 0 < fs.cols) :
    (∀ j, 0 ≤ j → j < fv.cols →
        fv.update_boundary.val (-1) j = ((fv.val 0 j).1, -(fv.val 0 j).2) ∧
        fv.update_boundary.val fv.rows j =
          ((fv.val (fv.rows - 1) j).1, -(fv.val (fv.rows - 1) j).2)) ∧
    (∀ i, 0 ≤ i → i < fv.rows →
        fv.update_boundary.val i (-1) = (-(fv.val i 0).1, (fv.val i 0).2) ∧
        fv.update_boundary.val i fv.cols =
          (-(fv.val i (fv.cols - 1)).1, (fv.val i (fv.cols - 1)).2)) ∧
    (∀ j, 0 ≤ j → j < fs.cols →
        fs.update_boundary.val (-1) j = fs.val 0 j ∧
        fs.update_boundary.val fs.rows j = fs.val (fs.rows - 1) j) ∧
    (∀ i, 0 ≤ i → i < fs.rows →
        fs.update_boundary.val i (-1) = fs.val i 0 ∧
        fs.update_boundary.val i fs.cols = fs.val i (fs.cols - 1)) := by
  have hvrow : fv.rows ≠ -1 := by omega
  have hvcol : fv.cols ≠ -1 := by omega
  have hsrow : fs.rows ≠ -1 := by omega
  have hscol : fs.cols ≠ -1 := by omega
  refine ⟨fun j h0 h1 => ?_, fun i h0 h1 => ?_, fun j h0 h1 => ?_, fun i h0 h1 => ?_⟩
  · constructor
    · simp [Field.update_boundary, hv, ghostVal, h0, h1, rowGhost_vector]
    · simp [Field.update_boundary, hv, ghostVal, h0, h1, hvrow, rowGhost_vector]
  · constructor
    · simp [Field.update_boundary, hv, ghostVal, h0, h1, colGhost_vector, (by omega : ¬(i = -1)), (by omega : ¬(i = fv.rows))]
    · simp [Field.update_boundary, hv, ghostVal, h0, h1, hvcol, colGhost_vector, (by omega : ¬(i = -1)), (by omega : ¬(i = fv.rows))]
  · constructor
    · simp [Field.update_boundary, hs, ghostVal, h0, h1]
    · simp [Field.update_boundary, hs, ghostVal, h0, h1, hsrow]
  · constructor
    · simp [Field.update_boundary, hs, ghostVal, h0, h1, (by omega : ¬(i = -1)), (by omega : ¬(i = fs.rows))]
    · simp [Field.update_boundary, hs, ghostVal, h0, h1, hscol, (by omega : ¬(i = -1)), (by omega : ¬(i = fs.rows))]

/-- Witness scalar field for C4. -/
def scalW4 : Field ℚ := ⟨1, 1, BC.CLONE, fun i j => 3 * (i : ℚ) + (j : ℚ)⟩

theorem update_boundary_policy_witness :
    velW5.bc = BC.NEGATIVE ∧ (0 : ℤ) < velW5.rows ∧ (0 : ℤ) < velW5.cols ∧
    scalW4.bc = BC.CLONE ∧ (0 : ℤ) < scalW4.rows ∧ (0 : ℤ) < scalW4.cols ∧
    velW5.update_boundary.val (-1) 0 = ((velW5.val 0 0).1, -(velW5.val 0 0).2) ∧
    scalW4.update_boundary.val (-1) 0 = scalW4.val 0 0 :=
  ⟨rfl, by decide, by decide, rfl, by decide, by decide,
    ((update_boundary_policy velW5 rfl (by decide) (by decide)
        scalW4 rfl (by decide) (by decide)).1 0 (by decide) (by decide)).1,
    (((update_boundary_policy velW5 rfl (by decide) (by decide)
        scalW4 rfl (by decide) (by decide)).2.2.1) 0 (by decide) (by decide)).1⟩

/-! ## Forcing (claim C7) -/

/-- Claim C7: in every simulation tick, exactly when the external boolean
input is asserted, the tick additively injects the fixed delta `dv` at the
four cells centred on the domain — `(R/2, C/2)`, `(R/2+1, C/2)`,
`(R/2, C/2+1)`, `(R/2+1, C/2+1)` — and leaves every other cell alone; when
the input is not asserted the velocity field is unchanged.  The delta obeys
the stability bound `|dv|·DT ≤ 1`, stated square-free as
`(dv.x² + dv.y²)·DT² ≤ 1`. -/
theorem forcing_centered_cells (pressed : Bool) (v : Field Vector) :
    (pressed = true →
      (forceStep pressed v).val (N_ROWS / 2) (N_COLS / 2) =
          v.val (N_ROWS / 2) (N_COLS / 2) + dv ∧
        (forceStep pressed v).val (N_ROWS / 2 + 1) (N_COLS / 2) =
          v.val (N_ROWS / 2 + 1) (N_COLS / 2) + dv ∧
        (forceStep pressed v).val (N_ROWS / 2) (N_COLS / 2 + 1) =
          v.val (N_ROWS / 2) (N_COLS / 2 + 1) + dv ∧
        (forceStep pressed v).val (N_ROWS / 2 + 1) (N_COLS / 2 + 1) =
          v.val (N_ROWS / 2 + 1) (N_COLS / 2 + 1) + dv ∧
        ∀ i j, ¬((i = N_ROWS / 2 ∨ i = N_ROWS / 2 + 1) ∧
            (j = N_COLS / 2 ∨ j = N_COLS / 2 + 1)) →
          (forceStep pressed v).val i j = v.val i j) ∧
    (pressed = false → forceStep pressed v = v) ∧
    (dv.1 ^ 2 + dv.2 ^ 2) * DT ^ 2 ≤ 1 := by
  refine ⟨fun hp => ?_, fun hp => ?_, by norm_num [dv, DT]⟩
  · subst hp
    refine ⟨?_, ?_, ?_, ?_, fun i j hij => ?_⟩
    · simp [forceStep, Field.set, N_ROWS, N_COLS]
    · simp [forceStep, Field.set, N_ROWS, N_COLS]
    · simp [forceStep, Field.set, N_ROWS, N_COLS]
    · simp [forceStep, Field.set, N_ROWS, N_COLS]
    · simp only [N_ROWS, N_COLS] at hij
      norm_num at hij
      simp [forceStep, Field.set, N_ROWS, N_COLS]
      rw [if_neg (by omega), if_neg (by omega), if_neg (by omega), if_neg (by omega)]
  · subst hp
    rfl

/-- Witness velocity field for C7: constant `(1, 2)`. -/
def velW7 : Field Vector := ⟨80, 60, BC.NEGATIVE, fun _ _ => (1, 2)⟩

theorem forcing_centered_cells_witness :
    (forceStep true velW7).val (N_ROWS / 2) (N_COLS / 2) =
        velW7.val (N_ROWS / 2) (N_COLS / 2) + dv ∧
      forceStep false velW7 = velW7 :=
  ⟨((forcing_centered_cells true velW7).1 rfl).1,
    (forcing_centered_cells false velW7).2.1 rfl⟩

/-! ## Constant-field lemmas and the rest-state tick (claim C9) -/

/-- Bilinear interpolation of a pointwise-constant field yields the constant
(at any sampling position, since the four weights sum to `1`). -/
lemma bilerp_const {T : Type} [AddCommMonoid T] [Module ℚ T]
    (src : Field T) (c : T) (hc : ∀ i j, src.val i j = c) (pi pj : ℚ) :
    bilerp src pi pj = c := by
  simp only [bilerp, hc]
  rw [← add_smul, ← add_smul, ← add_smul,
    show (1 - (pi - (⌊pi⌋ : ℚ))) * (1 - (pj - (⌊pj⌋ : ℚ))) +
        (1 - (pi - (⌊pi⌋ : ℚ))) * (pj - (⌊pj⌋ : ℚ)) +
        (pi - (⌊pi⌋ : ℚ)) * (1 - (pj - (⌊pj⌋ : ℚ))) +
        (pi - (⌊pi⌋ : ℚ)) * (pj - (⌊pj⌋ : ℚ)) = 1 by ring, one_smul]

/-- Advecting a pointwise-constant field yields the same constant,
whatever the velocity. -/
lemma advect_const_val {T : Type} [AddCommMonoid T] [Module ℚ T]
    (src : Field T) (c : T) (hc : ∀ i j, src.val i j = c)
    (vel : Field Vector) (dt : ℚ) :
    ∀ i j, (semilagrangian_advect src vel dt).val i j = c := by
  intro i j
  unfold semilagrangian_advect
  dsimp only
  split_ifs
  · exact bilerp_const src c hc _ _
  · exact hc i j

/-- `update_boundary` preserves a pointwise-constant field whose constant is
fixed by both ghost rules. -/
lemma update_boundary_const {T : Type} [BoundaryReflect T]
    (f : Field T) (c : T) (hc : ∀ i j, f.val i j = c)
    (hrow : BoundaryReflect.rowGhost c = c) (hcol : BoundaryReflect.colGhost c = c) :
    ∀ i j, f.update_boundary.val i j = c := by
  intro i j
  unfold Field.update_boundary ghostVal
  split_ifs <;> simp [hc, hrow, hcol]

lemma rowGhost_zero_vector : BoundaryReflect.rowGhost (0 : Vector) = 0 := by
  rw [rowGhost_vector]; simp [Prod.ext_iff]

lemma colGhost_zero_vector : BoundaryReflect.colGhost (0 : Vector) = 0 := by
  rw [colGhost_vector]; simp [Prod.ext_iff]

/-- The divergence of a pointwise-zero velocity field is pointwise zero. -/
lemma divergence_of_zero (v : Field Vector) (hv : ∀ i j, v.val i j = 0) :
    ∀ i j, (divergence v).val i j = 0 := by
  intro i j
  unfold divergence
  dsimp only
  split_ifs
  · simp [hv]
  · rfl

/-- Gauss-Seidel cell updates keep a pointwise-zero pressure field zero when
the divergence is pointwise zero. -/
lemma foldl_gsCell_zero (d : Field ℚ) (hd : ∀ i j, d.val i j = 0)
    (l : List (ℤ × ℤ)) (p : Field ℚ) (hp : ∀ i j, p.val i j = 0) :
    ∀ i j, (l.foldl (fun q c => gsCell d q c.1 c.2) p).val i j = 0 := by
  induction l generalizing p with
  | nil => exact hp
  | cons c t ih =>
    refine ih _ fun i j => ?_
    unfold gsCell Field.set
    dsimp only
    split_ifs
    · simp [hp, hd]
    · exact hp i j

/-- A Gauss-Seidel sweep keeps a pointwise-zero pressure field zero when the
divergence is pointwise zero. -/
lemma gsSweep_zero (d p : Field ℚ) (hd : ∀ i j, d.val i j = 0)
    (hp : ∀ i j, p.val i j = 0) : ∀ i j, (gsSweep d p).val i j = 0 := by
  unfold gsSweep
  exact update_boundary_const _ 0 (foldl_gsCell_zero d hd _ p hp) rfl rfl

/-- The pressure solve against a pointwise-zero divergence is pointwise
zero, for any sweep budget. -/
lemma gauss_seidel_pressure_zero (d : Field ℚ) (hd : ∀ i j, d.val i j = 0)
    (K : ℕ) : ∀ i j, (gauss_seidel_pressure d K).val i j = 0 := by
  unfold gauss_seidel_pressure
  induction K with
  | zero => intro i j; rfl
  | succ n ih =>
    rw [Function.iterate_succ_apply']
    exact gsSweep_zero d _ hd ih

/-- Subtracting the gradient of a pointwise-zero pressure from a
pointwise-zero velocity leaves it pointwise zero. -/
lemma gradient_and_subtract_zero (v : Field Vector) (p : Field ℚ)
    (hv : ∀ i j, v.val i j = 0) (hp : ∀ i j, p.val i j = 0) :
    ∀ i j, (gradient_and_subtract v p).val i j = 0 := by
  intro i j
  unfold gradient_and_subtract
  dsimp only
  split_ifs
  · simp [hv, hp, Prod.ext_iff]
  · exact hv i j

/-- The diagnostic scan over a pointwise-zero divergence field is zero. -/
lemma maxAbsInterior_zero (d : Field ℚ) (hd : ∀ i j, d.val i j = 0) :
    maxAbsInterior d = 0 := by
  unfold maxAbsInterior
  generalize interiorCells d.rows d.cols = l
  induction l with
  | nil => rfl
  | cons c t ih =>
    rw [List.foldl_cons]
    have : (if |d.val c.1 c.2| > 0 then |d.val c.1 c.2| else 0) = 0 := by
      rw [hd]; simp
    rw [this]
    exact ih

/-- A pointwise-zero velocity field of the `NEGATIVE` policy. -/
def constV (R C : ℤ) : Field Vector := ⟨R, C, BC.NEGATIVE, fun _ _ => 0⟩

/-- A pointwise-uniform scalar colour field of the `CLONE` policy. -/
def constS (R C : ℤ) (c : ℚ) : Field ℚ := ⟨R, C, BC.CLONE, fun _ _ => c⟩

/-- The self-advected velocity of the rest-state tick. -/
def restV1 (R C : ℤ) : Field Vector :=
  (semilagrangian_advect (constV R C) (constV R C) DT).update_boundary

/-- The projected velocity of the rest-state tick. -/
def restV3 (R C : ℤ) (K : ℕ) : Field Vector :=
  (gradient_and_subtract (restV1 R C)
      (gauss_seidel_pressure (divergence (restV1 R C)) K)).update_boundary

/-- Claim C9: starting from velocity zero at every cell and each colour
field uniform, one full simulation tick with the external input de-asserted
leaves the velocity pointwise zero, every colour field unchanged, the
post-tick divergence pointwise zero, and a zero divergence diagnostic
(all exactly, in the rational model, for every sweep budget `K`). -/
theorem tick_at_rest (R C : ℤ) (c1 c2 c3 cur0 m0 : ℚ) (K : ℕ) :
    (∀ i j, (simTick false K ⟨constV R C, constS R C c1, constS R C c2,
        constS R C c3, cur0, m0⟩).velocity.val i j = 0) ∧
    (∀ i j, (simTick false K ⟨constV R C, constS R C c1, constS R C c2,
        constS R C c3, cur0, m0⟩).red.val i j = c1) ∧
    (∀ i j, (simTick false K ⟨constV R C, constS R C c1, constS R C c2,
        constS R C c3, cur0, m0⟩).green.val i j = c2) ∧
    (∀ i j, (simTick false K ⟨constV R C, constS R C c1, constS R C c2,
        constS R C c3, cur0, m0⟩).blue.val i j = c3) ∧
    (∀ i j, (divergence (simTick false K ⟨constV R C, constS R C c1,
        constS R C c2, constS R C c3, cur0, m0⟩).velocity).val i j = 0) ∧
    (simTick false K ⟨constV R C, constS R C c1, constS R C c2, constS R C c3,
        cur0, m0⟩).current = 0 := by
  have hv0 : ∀ i j, (constV R C).val i j = (0 : Vector) := fun _ _ => rfl
  have hv1 : ∀ i j, (restV1 R C).val i j = 0 :=
    update_boundary_const _ 0 (advect_const_val _ 0 hv0 _ _)
      rowGhost_zero_vector colGhost_zero_vector
  have hd : ∀ i j, (divergence (restV1 R C)).val i j = 0 := divergence_of_zero _ hv1
  have hp : ∀ i j, (gauss_seidel_pressure (divergence (restV1 R C)) K).val i j = 0 :=
    gauss_seidel_pressure_zero _ hd K
  have hv3 : ∀ i j, (restV3 R C K).val i j = 0 :=
    update_boundary_const _ 0 (gradient_and_subtract_zero _ _ hv1 hp)
      rowGhost_zero_vector colGhost_zero_vector
  refine ⟨?_, ?_, ?_, ?_, ?_, ?_⟩
  · show ∀ i j, (restV3 R C K).val i j = 0
    exact hv3
  · show ∀ i j,
      ((semilagrangian_advect (constS R C c1) (restV3 R C K) DT).update_boundary).val i j = c1
    exact update_boundary_const _ c1
      (advect_const_val (constS R C c1) c1 (fun _ _ => rfl) _ _) rfl rfl
  · show ∀ i j,
      ((semilagrangian_advect (constS R C c2) (restV3 R C K) DT).update_boundary).val i j = c2
    exact update_boundary_const _ c2
      (advect_const_val (constS R C c2) c2 (fun _ _ => rfl) _ _) rfl rfl
  · show ∀ i j,
      ((semilagrangian_advect (constS R C c3) (restV3 R C K) DT).update_boundary).val i j = c3
    exact update_boundary_const _ c3
      (advect_const_val (constS R C c3) c3 (fun _ _ => rfl) _ _) rfl rfl
  · show ∀ i j, (divergence (restV3 R C K)).val i j = 0
    exact divergence_of_zero _ hv3
  · show 100 * maxAbsInterior (divergence (restV3 R C K)) * DT = 0
    rw [maxAbsInterior_zero _ (divergence_of_zero _ hv3)]
    ring

/-! ## Diagnostic (claim C8) -/

/-- Facts about the running-maximum fold used by the diagnostic scan: the
accumulator never decreases, the result bounds every scanned value, and the
result is either the initial accumulator or one of the scanned values. -/
lemma foldl_max_facts (f : ℤ × ℤ → ℚ) (l : List (ℤ × ℤ)) :
    ∀ m : ℚ,
      m ≤ l.foldl (fun acc c => if f c > acc then f c else acc) m ∧
      (∀ c ∈ l, f c ≤ l.foldl (fun acc c => if f c > acc then f c else acc) m) ∧
      (l.foldl (fun acc c => if f c > acc then f c else acc) m = m ∨
        ∃ c ∈ l, l.foldl (fun acc c => if f c > acc then f c else acc) m = f c) := by
  induction l with
  | nil => exact fun m => ⟨le_refl m, by simp, Or.inl rfl⟩
  | cons c t ih =>
    intro m
    have hstep :
        m ≤ (if f c > m then f c else m) ∧ f c ≤ (if f c > m then f c else m) ∧
          ((if f c > m then f c else m) = m ∨ (if f c > m then f c else m) = f c) := by
      split_ifs with h
      · exact ⟨le_of_lt h, le_refl _, Or.inr rfl⟩
      · exact ⟨le_refl _, not_lt.mp h, Or.inl rfl⟩
    obtain ⟨ih1, ih2, ih3⟩ := ih (if f c > m then f c else m)
    rw [List.foldl_cons]
    refine ⟨le_trans hstep.1 ih1, fun x hx => ?_, ?_⟩
    · rcases List.mem_cons.mp hx with hx | hx
      · subst hx; exact le_trans hstep.2.1 ih1
      · exact ih2 x hx
    · rcases ih3 with h | ⟨x, hx, hfx⟩
      · rcases hstep.2.2 with h' | h'
        · exact Or.inl (h.trans h')
        · exact Or.inr ⟨c, List.mem_cons_self c t, h.trans h'⟩
      · exact Or.inr ⟨x, List.mem_cons.mpr (Or.inr hx), hfx⟩

/-- Membership in the row-major interior-cell list is exactly the interior
bound. -/
lemma mem_interiorCells {R C : ℤ} {c : ℤ × ℤ} :
    c ∈ interiorCells R C ↔ 0 ≤ c.1 ∧ c.1 < R ∧ 0 ≤ c.2 ∧ c.2 < C := by
  obtain ⟨i, j⟩ := c
  constructor
  · intro h
    obtain ⟨la, hla, h2⟩ := List.mem_flatMap.mp h
    obtain ⟨lb, hlb, hEq⟩ := List.mem_map.mp h2
    rw [List.mem_range] at hla hlb
    cases hEq
    simp only [Int.ofNat_eq_coe]
    refine ⟨?_, ?_, ?_, ?_⟩ <;> omega
  · rintro ⟨h0i, h1i, h0j, h1j⟩
    refine List.mem_flatMap.mpr ⟨i.toNat, List.mem_range.mpr (by omega),
      List.mem_map.mpr ⟨j.toNat, List.mem_range.mpr (by omega), ?_⟩⟩
    refine Prod.ext ?_ ?_ <;> simp only [Int.ofNat_eq_coe] <;> omega

/-- The diagnostic scan result is nonnegative, bounds `|divergence|` at
every interior cell, and (for a nonempty interior) is attained at some
interior cell. -/
lemma maxAbsInterior_facts (d : Field ℚ) :
    0 ≤ maxAbsInterior d ∧
    (∀ i j, (0 ≤ i ∧ i < d.rows ∧ 0 ≤ j ∧ j < d.cols) → |d.val i j| ≤ maxAbsInterior d) ∧
    (0 < d.rows → 0 < d.cols →
      ∃ i j, (0 ≤ i ∧ i < d.rows ∧ 0 ≤ j ∧ j < d.cols) ∧
        maxAbsInterior d = |d.val i j|) := by
  obtain ⟨h1, h2, h3⟩ :=
    foldl_max_facts (fun c => |d.val c.1 c.2|) (interiorCells d.rows d.cols) 0
  refine ⟨h1, fun i j hij => h2 (i, j) (mem_interiorCells.mpr hij), fun hR hC => ?_⟩
  rcases h3 with h0 | ⟨⟨i, j⟩, hmem, hval⟩
  · refine ⟨0, 0, ⟨le_refl 0, hR, le_refl 0, hC⟩, ?_⟩
    have hb := h2 (0, 0) (mem_interiorCells.mpr ⟨le_refl 0, hR, le_refl 0, hC⟩)
    have : |d.val 0 0| = 0 := le_antisymm (h0 ▸ hb) (abs_nonneg _)
    rw [maxAbsInterior, h0, this]
  · exact ⟨i, j, mem_interiorCells.mp hmem, hval⟩

/-! Dimension preservation through one tick. -/

lemma update_boundary_dims {T : Type} [BoundaryReflect T] (f : Field T) :
    (f.update_boundary).rows = f.rows ∧ (f.update_boundary).cols = f.cols := by
  unfold Field.update_boundary
  split_ifs <;> exact ⟨rfl, rfl⟩

lemma forceStep_dims (p : Bool) (v : Field Vector) :
    (forceStep p v).rows = v.rows ∧ (forceStep p v).cols = v.cols := by
  cases p <;> exact ⟨rfl, rfl⟩

lemma simTick_velocity_dims (p : Bool) (K : ℕ) (s : SimState) :
    (simTick p K s).velocity.rows = s.velocity.rows ∧
      (simTick p K s).velocity.cols = s.velocity.cols := by
  have h1 := update_boundary_dims (semilagrangian_advect s.velocity s.velocity DT)
  have h2 := forceStep_dims p ((semilagrangian_advect s.velocity s.velocity DT).update_boundary)
  have h3 := update_boundary_dims (gradient_and_subtract
      (forceStep p ((semilagrangian_advect s.velocity s.velocity DT).update_boundary))
      (gauss_seidel_pressure (divergence (forceStep p
        ((semilagrangian_advect s.velocity s.velocity DT).update_boundary))) K))
  exact ⟨(h3.1.trans h2.1).trans h1.1, (h3.2.trans h2.2).trans h1.2⟩

/-- `sim_routine` as a stream of ticks: `simRun pressed K s0 n` is the state
after `n` iterations, where `pressed n` is the external input sampled in
iteration `n`. -/
def simRun (pressed : ℕ → Bool) (K : ℕ) (s0 : SimState) : ℕ → SimState
  | 0 => s0
  | n + 1 => simTick (pressed n) K (simRun pressed K s0 n)

/-- The initial simulation state: the diagnostic accumulators start at `0`
(`.ino` line 33). -/
def initState (v : Field Vector) (r g b : Field ℚ) : SimState := ⟨v, r, g, b, 0, 0⟩

lemma simRun_velocity_dims (pressed : ℕ → Bool) (K : ℕ) (s0 : SimState) (n : ℕ) :
    (simRun pressed K s0 n).velocity.rows = s0.velocity.rows ∧
      (simRun pressed K s0 n).velocity.cols = s0.velocity.cols := by
  induction n with
  | zero => exact ⟨rfl, rfl⟩
  | succ n ih =>
    have h := simTick_velocity_dims (pressed n) K (simRun pressed K s0 n)
    exact ⟨h.1.trans ih.1, h.2.trans ih.2⟩

lemma simTick_current_eq (p : Bool) (K : ℕ) (s : SimState) :
    (simTick p K s).current =
      100 * maxAbsInterior (divergence (simTick p K s).velocity) * DT := rfl

lemma simTick_maxPct_eq (p : Bool) (K : ℕ) (s : SimState) :
    (simTick p K s).maxPct =
      if (simTick p K s).current > s.maxPct then (simTick p K s).current
      else s.maxPct := rfl

lemma simTick_current_nonneg (p : Bool) (K : ℕ) (s : SimState) :
    0 ≤ (simTick p K s).current := by
  rw [simTick_current_eq]
  have h := (maxAbsInterior_facts (divergence (simTick p K s).velocity)).1
  have hDT : (0 : ℚ) < DT := by norm_num [DT]
  nlinarith

/-- One tick's diagnostic facts: the tick's `current` value is
`100 · M · DT` where `M` is the maximum interior `|divergence|` of the
post-projection velocity (upper bound plus attainment). -/
lemma simTick_current_facts (p : Bool) (K : ℕ) (s : SimState)
    (hR : 0 < s.velocity.rows) (hC : 0 < s.velocity.cols) :
    (∀ i j, (divergence (simTick p K s).velocity).interior i j →
        100 * |(divergence (simTick p K s).velocity).val i j| * DT ≤
          (simTick p K s).current) ∧
    (∃ i j, (divergence (simTick p K s).velocity).interior i j ∧
        (simTick p K s).current =
          100 * |(divergence (simTick p K s).velocity).val i j| * DT) := by
  have hdims := simTick_velocity_dims p K s
  obtain ⟨hnn, hub, hat⟩ := maxAbsInterior_facts (divergence (simTick p K s).velocity)
  have hR' : 0 < (divergence (simTick p K s).velocity).rows := by
    show 0 < (simTick p K s).velocity.rows
    rw [hdims.1]; exact hR
  have hC' : 0 < (divergence (simTick p K s).velocity).cols := by
    show 0 < (simTick p K s).velocity.cols
    rw [hdims.2]; exact hC
  have hDT : (0 : ℚ) < DT := by norm_num [DT]
  constructor
  · intro i j hij
    rw [simTick_current_eq]
    have := hub i j hij
    nlinarith
  · obtain ⟨i, j, hij, hval⟩ := hat hR' hC'
    exact ⟨i, j, hij, by rw [simTick_current_eq, hval]⟩

/-- Claim C8: each tick's diagnostic equals `100 × M × dt` with `M` the
maximum interior `|post-projection divergence|` (stated as upper bound plus
attainment); the running `maxPct` equals the maximum of the per-tick
`current` values over all ticks so far, and it never decreases. -/
theorem diagnostic_density_drift (pressed : ℕ → Bool) (K : ℕ)
    (v : Field Vector) (r g b : Field ℚ)
    (hR : 0 < v.rows) (hC : 0 < v.cols) (n : ℕ) :
    (∀ i j,
        (divergence (simRun pressed K (initState v r g b) (n + 1)).velocity).interior i j →
        100 * |(divergence (simRun pressed K (initState v r g b) (n + 1)).velocity).val i j|
            * DT ≤ (simRun pressed K (initState v r g b) (n + 1)).current) ∧
    (∃ i j,
        (divergence (simRun pressed K (initState v r g b) (n + 1)).velocity).interior i j ∧
        (simRun pressed K (initState v r g b) (n + 1)).current =
          100 * |(divergence (simRun pressed K (initState v r g b) (n + 1)).velocity).val i j|
            * DT) ∧
    (∀ m, m ≤ n → (simRun pressed K (initState v r g b) (m + 1)).current ≤
        (simRun pressed K (initState v r g b) (n + 1)).maxPct) ∧
    (∃ m, m ≤ n ∧ (simRun pressed K (initState v r g b) (n + 1)).maxPct =
        (simRun pressed K (initState v r g b) (m + 1)).current) ∧
    (simRun pressed K (initState v r g b) n).maxPct ≤
      (simRun pressed K (initState v r g b) (n + 1)).maxPct := by
  have hdims := simRun_velocity_dims pressed K (initState v r g b) n
  have htick := simTick_current_facts (pressed n) K (simRun pressed K (initState v r g b) n)
    (by rw [hdims.1]; exact hR) (by rw [hdims.2]; exact hC)
  refine ⟨htick.1, htick.2, ?_⟩
  -- running-maximum part, by induction on the number of ticks
  clear htick hdims
  induction n with
  | zero =>
    have hnn := simTick_current_nonneg (pressed 0) K (initState v r g b)
    have hmax := simTick_maxPct_eq (pressed 0) K (initState v r g b)
    have h0 : (initState v r g b).maxPct = 0 := rfl
    rw [h0] at hmax
    have hrun1 : simRun pressed K (initState v r g b) (0 + 1) =
        simTick (pressed 0) K (initState v r g b) := rfl
    refine ⟨?_, ⟨0, le_refl 0, ?_⟩, ?_⟩
    · intro m hm
      interval_cases m
      rw [hrun1, hmax]
      split_ifs with h
      · exact le_refl _
      · exact not_lt.mp h
    · rw [hrun1, hmax]
      split_ifs with h
      · rfl
      · exact (le_antisymm (not_lt.mp h) hnn).symm
    · show (0 : ℚ) ≤ _
      rw [hrun1, hmax]
      split_ifs with h
      · exact hnn
      · exact le_refl 0
  | succ n ih =>
    obtain ⟨ihub, ⟨m0, hm0, hat⟩, ihmono⟩ := ih
    have hmax := simTick_maxPct_eq (pressed (n + 1)) K (simRun pressed K (initState v r g b) (n + 1))
    have hstep : simRun pressed K (initState v r g b) (n + 1 + 1) =
        simTick (pressed (n + 1)) K (simRun pressed K (initState v r g b) (n + 1)) := rfl
    refine ⟨?_, ?_, ?_⟩
    · intro m hm
      rcases Nat.lt_or_ge m (n + 1) with hlt | hge
      · have hle := ihub m (Nat.lt_succ_iff.mp hlt)
        refine hle.trans ?_
        rw [hstep, hmax]
        split_ifs with h
        · exact le_of_lt h
        · exact le_refl _
      · have : m = n + 1 := le_antisymm hm hge
        subst this
        rw [hstep, hmax]
        split_ifs with h
        · exact le_refl _
        · exact not_lt.mp h
    · rw [hstep, hmax]
      split_ifs with h
      · exact ⟨n + 1, le_refl _, rfl⟩
      · exact ⟨m0, hm0.trans (Nat.le_succ n), hat⟩
    · rw [hstep, hmax]
      split_ifs with h
      · exact le_of_lt h
      · exact le_refl _

/-- Witness velocity field for C8. -/
def velW8 : Field Vector := ⟨1, 1, BC.NEGATIVE, fun _ _ => (1, 1)⟩

/-- Witness colour field for C8. -/
def scalW8 : Field ℚ := ⟨1, 1, BC.CLONE, fun _ _ => 0⟩

theorem diagnostic_density_drift_witness :
    (0 : ℤ) < velW8.rows ∧ (0 : ℤ) < velW8.cols ∧
      (simRun (fun _ => false) 1 (initState velW8 scalW8 scalW8 scalW8) 0).maxPct ≤
        (simRun (fun _ => false) 1 (initState velW8 scalW8 scalW8 scalW8) 1).maxPct :=
  ⟨by decide, by decide,
    (diagnostic_density_drift (fun _ => false) 1 velW8 scalW8 scalW8 scalW8
        (by decide) (by decide) 0).2.2.2.2⟩

/-! ## Colour-commit buffer rotation (claim C3)

The commit step of `sim_routine` (`.ino` lines 130-147) manipulates heap
pointers (`new`, pointer swaps, `delete`), so it is modelled over an
explicit heap: pointers are naturals, a heap maps live pointers to field
values. -/

/-- A heap of field objects: an allocation counter plus the contents of the
live pointers. -/
structure Heap (F : Type) where
  next : ℕ
  mem : ℕ → Option F

/-- `new Field(...)`: return a fresh pointer holding an (arbitrary)
initial value `f0`, together with the grown heap. -/
def Heap.alloc {F : Type} (h : Heap F) (f0 : F) : ℕ × Heap F :=
  (h.next, ⟨h.next + 1, fun p => if p = h.next then some f0 else h.mem p⟩)

/-- `delete p`. -/
def Heap.free {F : Type} (h : Heap F) (p : ℕ) : Heap F :=
  { h with mem := fun q => if q = p then none else h.mem q }

/-- `semilagrangian_advect(dst, src, ...)` on the heap: overwrite the
buffer at `dst` with `adv` of the contents at `src` (the C++ operator
requires `dst ≠ src`; in every call below the two pointers are distinct). -/
def Heap.advectInto {F : Type} (adv : F → F) (h : Heap F) (dst src : ℕ) : Heap F :=
  { h with mem := fun q => if q = dst then (h.mem src).map adv else h.mem q }

/-- Outcome of a colour commit: final heap, the three channel pointers, and
the pointers freed during the commit. -/
structure CommitOut (F : Type) where
  heap : Heap F
  red : ℕ
  green : ℕ
  blue : ℕ
  freed : List ℕ

/-- The rotating commit of `.ino` lines 130-147: allocate one spare buffer,
advect red into it and swap, advect green into the buffer rotated out of
red and swap, advect blue into the buffer rotated out of green and swap,
then delete the buffer rotated out of blue. -/
def commitRotate {F : Type} (adv : F → F) (f0 : F) (h : Heap F)
    (r g b : ℕ) : CommitOut F :=
  let t := (h.alloc f0).1
  let h1 := (h.alloc f0).2
  let h2 := Heap.advectInto adv h1 t r
  let h3 := Heap.advectInto adv h2 r g
  let h4 := Heap.advectInto adv h3 g b
  ⟨h4.free b, t, r, g, [b]⟩

/-- The naive commit: advect each channel into its own fresh buffer, then
free all three old buffers. -/
def commitNaive {F : Type} (adv : F → F) (f0 : F) (h : Heap F)
    (r g b : ℕ) : CommitOut F :=
  let t1 := (h.alloc f0).1
  let h1 := Heap.advectInto adv (h.alloc f0).2 t1 r
  let t2 := (h1.alloc f0).1
  let h2 := Heap.advectInto adv (h1.alloc f0).2 t2 g
  let t3 := (h2.alloc f0).1
  let h3 := Heap.advectInto adv (h2.alloc f0).2 t3 b
  ⟨((h3.free r).free g).free b, t1, t2, t3, [r, g, b]⟩

/-- Claim C3: the rotating commit is observationally equal to the naive
scheme — after commit each channel pointer holds exactly the
semi-Lagrangian advection (under the given velocity) of that same
channel's pre-commit field, the two schemes' channel contents agree, and
the rotating commit frees exactly one field object. -/
theorem commitRotate_refines_naive (vel : Field Vector) (f0 fr fg fb : Field ℚ)
    (h : Heap (Field ℚ)) (r g b : ℕ)
    (hr : h.mem r = some fr) (hg : h.mem g = some fg) (hb : h.mem b = some fb)
    (hrn : r < h.next) (hgn : g < h.next) (hbn : b < h.next)
    (hrg : r ≠ g) (hrb : r ≠ b) (hgb : g ≠ b) :
    (commitRotate (fun f => (semilagrangian_advect f vel DT).update_boundary) f0 h r g b).heap.mem
        (commitRotate (fun f => (semilagrangian_advect f vel DT).update_boundary) f0 h r g b).red =
      some ((semilagrangian_advect fr vel DT).update_boundary) ∧
    (commitRotate (fun f => (semilagrangian_advect f vel DT).update_boundary) f0 h r g b).heap.mem
        (commitRotate (fun f => (semilagrangian_advect f vel DT).update_boundary) f0 h r g b).green =
      some ((semilagrangian_advect fg vel DT).update_boundary) ∧
    (commitRotate (fun f => (semilagrangian_advect f vel DT).update_boundary) f0 h r g b).heap.mem
        (commitRotate (fun f => (semilagrangian_advect f vel DT).update_boundary) f0 h r g b).blue =
      some ((semilagrangian_advect fb vel DT).update_boundary) ∧
    (commitRotate (fun f => (semilagrangian_advect f vel DT).update_boundary) f0 h r g b).freed.length = 1 ∧
    (commitRotate (fun f => (semilagrangian_advect f vel DT).update_boundary) f0 h r g b).heap.mem
        (commitRotate (fun f => (semilagrangian_advect f vel DT).update_boundary) f0 h r g b).red =
      (commitNaive (fun f => (semilagrangian_advect f vel DT).update_boundary) f0 h r g b).heap.mem
        (commitNaive (fun f => (semilagrangian_advect f vel DT).update_boundary) f0 h r g b).red ∧
    (commitRotate (fun f => (semilagrangian_advect f vel DT).update_boundary) f0 h r g b).heap.mem
        (commitRotate (fun f => (semilagrangian_advect f vel DT).update_boundary) f0 h r g b).green =
      (commitNaive (fun f => (semilagrangian_advect f vel DT).update_boundary) f0 h r g b).heap.mem
        (commitNaive (fun f => (semilagrangian_advect f vel DT).update_boundary) f0 h r g b).green ∧
    (commitRotate (fun f => (semilagrangian_advect f vel DT).update_boundary) f0 h r g b).heap.mem
        (commitRotate (fun f => (semilagrangian_advect f vel DT).update_boundary) f0 h r g b).blue =
      (commitNaive (fun f => (semilagrangian_advect f vel DT).update_boundary) f0 h r g b).heap.mem
        (commitNaive (fun f => (semilagrangian_advect f vel DT).update_boundary) f0 h r g b).blue := by
  have htb : h.next ≠ b := by omega
  have htg : h.next ≠ g := by omega
  have htr : h.next ≠ r := by omega
  have hrnext : r ≠ h.next := by omega
  have hgnext : g ≠ h.next := by omega
  have hbnext : b ≠ h.next := by omega
  have hbr : b ≠ r := hrb.symm
  have hbg : b ≠ g := hgb.symm
  have hgr : g ≠ r := hrg.symm
  have hg1 : g ≠ h.next + 1 := by omega
  have hb1 : b ≠ h.next + 1 := by omega
  have hr1 : r ≠ h.next + 1 := by omega
  have hg2 : g ≠ h.next + 1 + 1 := by omega
  have hb2 : b ≠ h.next + 1 + 1 := by omega
  have hr2 : r ≠ h.next + 1 + 1 := by omega
  have h1g : h.next + 1 ≠ g := by omega
  have h1b : h.next + 1 ≠ b := by omega
  have h1r : h.next + 1 ≠ r := by omega
  have h2g : h.next + 1 + 1 ≠ g := by omega
  have h2b : h.next + 1 + 1 ≠ b := by omega
  have h2r : h.next + 1 + 1 ≠ r := by omega
  have a1 : h.next ≠ h.next + 1 := by omega
  have a2 : h.next ≠ h.next + 1 + 1 := by omega
  have a3 : h.next + 1 ≠ h.next + 1 + 1 := by omega
  have a4 : h.next + 1 ≠ h.next := by omega
  have a5 : h.next + 1 + 1 ≠ h.next := by omega
  have a6 : h.next + 1 + 1 ≠ h.next + 1 := by omega
  refine ⟨?_, ?_, ?_, rfl, ?_, ?_, ?_⟩ <;>
    simp [commitRotate, commitNaive, Heap.alloc, Heap.advectInto, Heap.free,
      htb, htg, htr, hrnext, hgnext, hbnext, hbr, hbg, hgr, hrg, hrb, hgb,
      hg1, hb1, hr1, hg2, hb2, hr2, h1g, h1b, h1r, h2g, h2b, h2r,
      a1, a2, a3, a4, a5, a6, hr, hg, hb]

/-- Witness pre-commit channel fields for C3. -/
def frW : Field ℚ := ⟨1, 1, BC.CLONE, fun _ _ => 1⟩

def fgW : Field ℚ := ⟨1, 1, BC.CLONE, fun _ _ => 2⟩

def fbW : Field ℚ := ⟨1, 1, BC.CLONE, fun _ _ => 3⟩

/-- Witness velocity for C3. -/
def velW3 : Field Vector := ⟨1, 1, BC.NEGATIVE, fun _ _ => 0⟩

/-- Witness heap for C3: pointers 0, 1, 2 hold the three channels. -/
def heapW : Heap (Field ℚ) :=
  ⟨3, fun p => if p = 0 then some frW else if p = 1 then some fgW
    else if p = 2 then some fbW else none⟩

theorem commitRotate_refines_naive_witness :
    heapW.mem 0 = some frW ∧ (0 : ℕ) < heapW.next ∧
      (commitRotate (fun f => (semilagrangian_advect f velW3 DT).update_boundary)
          frW heapW 0 1 2).freed.length = 1 :=
  ⟨rfl, by decide,
    (commitRotate_refines_naive velW3 frW frW fgW fbW heapW 0 1 2
        rfl rfl rfl (by decide) (by decide) (by decide)
        (by decide) (by decide) (by decide)).2.2.2.1⟩

/-! ## Concurrency protocol (claims C1 and C2)

`draw_routine` (`.ino` lines 71-82) and `sim_routine` (lines 86-217) share
the three colour-field pointers under one mutex (`color_mutex`) and one
binary semaphore (`color_semaphore`).  The protocol is modelled as a
transition system: colour contents are abstracted to version tags (the
index of the commit that last wrote each channel), and interleavings are
arbitrary.  `xSemaphoreGive` on a full binary semaphore is a no-op. -/

/-- Program points of `sim_routine`: `compute` = the physics steps (lines
86-119), `acquire` = the mutex take (line 125), `advR`/`advG`/`advB` = the
three channel advect-and-swap blocks (lines 132-145), `relMutex` = the
mutex give (line 150), `giveSem` = the semaphore give (line 151), `diag` =
the diagnostic and telemetry tail (lines 165-216). -/
inductive SimLoc where
  | compute | acquire | advR | advG | advB | relMutex | giveSem | diag
deriving DecidableEq

/-- Program points of `draw_routine`: `waitSem` = the semaphore take (line
77), `acquireD` = the mutex take (line 78), `reading` = the mutex-held draw
pass (line 79), `relMutexD` = the mutex give (line 80). -/
inductive DrawLoc where
  | waitSem | acquireD | reading | relMutexD
deriving DecidableEq

inductive MutexState where
  | unowned | bySim | byDraw
deriving DecidableEq

/-- Joint state of the two tasks and the shared primitives.  `redV`,
`greenV`, `blueV` tag each colour pointer with the index of the commit that
produced it; `committed` counts completed commits. -/
structure ConcState where
  simLoc : SimLoc
  drawLoc : DrawLoc
  mutex : MutexState
  sem : Bool
  committed : ℕ
  redV : ℕ
  greenV : ℕ
  blueV : ℕ

/-- Transitions of `sim_routine`.  The mutex take blocks (is only enabled)
while the mutex is unowned; channel swap `advR`/`advG`/`advB` stamps that
channel with the index of the commit in progress. -/
inductive SimStep : ConcState → ConcState → Prop where
  | compute (d m sem c r g b) :
      SimStep ⟨.compute, d, m, sem, c, r, g, b⟩ ⟨.acquire, d, m, sem, c, r, g, b⟩
  | acquire (d sem c r g b) :
      SimStep ⟨.acquire, d, .unowned, sem, c, r, g, b⟩ ⟨.advR, d, .bySim, sem, c, r, g, b⟩
  | advR (d m sem c r g b) :
      SimStep ⟨.advR, d, m, sem, c, r, g, b⟩ ⟨.advG, d, m, sem, c, c + 1, g, b⟩
  | advG (d m sem c r g b) :
      SimStep ⟨.advG, d, m, sem, c, r, g, b⟩ ⟨.advB, d, m, sem, c, r, c + 1, b⟩
  | advB (d m sem c r g b) :
      SimStep ⟨.advB, d, m, sem, c, r, g, b⟩ ⟨.relMutex, d, m, sem, c, r, g, c + 1⟩
  | relMutex (d m sem c r g b) :
      SimStep ⟨.relMutex, d, m, sem, c, r, g, b⟩ ⟨.giveSem, d, .unowned, sem, c + 1, r, g, b⟩
  | giveSem (d m sem c r g b) :
      SimStep ⟨.giveSem, d, m, sem, c, r, g, b⟩ ⟨.diag, d, m, true, c, r, g, b⟩
  | diag (d m sem c r g b) :
      SimStep ⟨.diag, d, m, sem, c, r, g, b⟩ ⟨.compute, d, m, sem, c, r, g, b⟩

/-- Transitions of `draw_routine`.  The semaphore take blocks until the
semaphore is raised and consumes it; the mutex take blocks while the mutex
is owned. -/
inductive DrawStep : ConcState → ConcState → Prop where
  | waitSem (sl m c r g b) :
      DrawStep ⟨sl, .waitSem, m, true, c, r, g, b⟩ ⟨sl, .acquireD, m, false, c, r, g, b⟩
  | acquireD (sl sem c r g b) :
      DrawStep ⟨sl, .acquireD, .unowned, sem, c, r, g, b⟩ ⟨sl, .reading, .byDraw, sem, c, r, g, b⟩
  | read (sl m sem c r g b) :
      DrawStep ⟨sl, .reading, m, sem, c, r, g, b⟩ ⟨sl, .relMutexD, m, sem, c, r, g, b⟩
  | relMutexD (sl m sem c r g b) :
      DrawStep ⟨sl, .relMutexD, m, sem, c, r, g, b⟩ ⟨sl, .waitSem, .unowned, sem, c, r, g, b⟩

/-- An arbitrary interleaving advances either task. -/
def Step (s s' : ConcState) : Prop := SimStep s s' ∨ DrawStep s s'

/-- Both tasks start at the top of their loops; the semaphore starts empty
(`xSemaphoreCreateBinary`), the mutex free, nothing committed. -/
def initConc : ConcState := ⟨.compute, .waitSem, .unowned, false, 0, 0, 0, 0⟩

def Reachable (s : ConcState) : Prop := Relation.ReflTransGen Step initConc s

/-- `sim_routine` is inside its mutex-held commit region. -/
def SimInCommit (l : SimLoc) : Prop :=
  l = .advR ∨ l = .advG ∨ l = .advB ∨ l = .relMutex

/-- `draw_routine` is inside its mutex-held region. -/
def DrawInMutex (l : DrawLoc) : Prop := l = .reading ∨ l = .relMutexD

/-- Protocol invariant: the mutex owner is exactly the task inside its
mutex-held region, and the version tags track the commit progress. -/
def Inv (s : ConcState) : Prop :=
  (s.mutex = .bySim ↔ SimInCommit s.simLoc) ∧
  (s.mutex = .byDraw ↔ DrawInMutex s.drawLoc) ∧
  (match s.simLoc with
    | .advG => s.redV = s.committed + 1 ∧ s.greenV = s.committed ∧ s.blueV = s.committed
    | .advB => s.redV = s.committed + 1 ∧ s.greenV = s.committed + 1 ∧ s.blueV = s.committed
    | .relMutex =>
        s.redV = s.committed + 1 ∧ s.greenV = s.committed + 1 ∧ s.blueV = s.committed + 1
    | _ => s.redV = s.committed ∧ s.greenV = s.committed ∧ s.blueV = s.committed)

lemma inv_init : Inv initConc := by
  refine ⟨?_, ?_, ?_⟩ <;> simp [initConc, SimInCommit, DrawInMutex, Inv]

lemma inv_step {s s' : ConcState} (hInv : Inv s) (hstep : Step s s') : Inv s' := by
  obtain ⟨h1, h2, h3⟩ := hInv
  rcases hstep with h | h
  · cases h <;>
      simp_all [Inv, SimInCommit, DrawInMutex]
  · cases h <;>
      simp_all [Inv, SimInCommit, DrawInMutex]

lemma reachable_inv {s : ConcState} (h : Reachable s) : Inv s := by
  induction h with
  | refl => exact inv_init
  | tail _ hbc ih => exact inv_step ih hbc

/-- Claim C1: in every interleaving, whenever the render task is inside its
mutex-held draw pass, the three colour tags it reads are all the latest
committed tick's — never a mix of two ticks — because all three channel
swaps happen under the mutex. -/
theorem render_reads_single_commit (s : ConcState) (hs : Reachable s)
    (hread : s.drawLoc = DrawLoc.reading) :
    s.redV = s.committed ∧ s.greenV = s.committed ∧ s.blueV = s.committed := by
  obtain ⟨h1, h2, h3⟩ := reachable_inv hs
  have hdraw : s.mutex = .byDraw := h2.mpr (Or.inl hread)
  have hnotsim : ¬ SimInCommit s.simLoc := fun hc => by
    have := h1.mpr hc
    rw [hdraw] at this
    exact absurd this (by decide)
  revert h3
  cases hloc : s.simLoc <;>
    simp_all [SimInCommit]

/-- A concrete reachable state with the render task mid-draw, used by the
C1 and C2 witnesses: the simulation has completed one commit and raised the
semaphore, then the render task consumed it and acquired the mutex. -/
lemma reachable_demo :
    Reachable ⟨.diag, .reading, .byDraw, false, 1, 1, 1, 1⟩ := by
  refine Relation.ReflTransGen.tail (Relation.ReflTransGen.tail
    (Relation.ReflTransGen.tail (Relation.ReflTransGen.tail
      (Relation.ReflTransGen.tail (Relation.ReflTransGen.tail
        (Relation.ReflTransGen.tail (Relation.ReflTransGen.tail
          (Relation.ReflTransGen.tail Relation.ReflTransGen.refl
            (Or.inl (SimStep.compute _ _ _ _ _ _ _)))
          (Or.inl (SimStep.acquire _ _ _ _ _ _)))
        (Or.inl (SimStep.advR _ _ _ _ _ _ _)))
      (Or.inl (SimStep.advG _ _ _ _ _ _ _)))
    (Or.inl (SimStep.advB _ _ _ _ _ _ _)))
    (Or.inl (SimStep.relMutex _ _ _ _ _ _ _)))
    (Or.inl (SimStep.giveSem _ _ _ _ _ _ _)))
    (Or.inr (DrawStep.waitSem _ _ _ _ _ _)))
    (Or.inr (DrawStep.acquireD _ _ _ _ _ _))

theorem render_reads_single_commit_witness :
    Reachable ⟨.diag, .reading, .byDraw, false, 1, 1, 1, 1⟩ ∧
      (ConcState.mk .diag .reading .byDraw false 1 1 1 1).redV =
        (ConcState.mk .diag .reading .byDraw false 1 1 1 1).committed :=
  ⟨reachable_demo,
    (render_reads_single_commit ⟨.diag, .reading, .byDraw, false, 1, 1, 1, 1⟩
        reachable_demo rfl).1⟩

/-- Claim C2, counterexample: if the render task never completes a
ready-signal wait (it takes no step at all — in the model, a sim-only
execution), the simulation does NOT block at its next mutex-acquire: the
mutex was released at the end of the first commit and nobody else holds it,
so the simulation runs a second full commit.  The final state below is
reached by sim-only steps, the render task still sits at its initial
semaphore wait, and two commits have completed. -/
theorem sim_commits_twice_while_render_paused :
    Relation.ReflTransGen SimStep initConc
        ⟨.compute, .waitSem, .unowned, true, 2, 2, 2, 2⟩ ∧
      (ConcState.mk .compute .waitSem .unowned true 2 2 2 2).drawLoc = .waitSem ∧
      1 < (ConcState.mk .compute .waitSem .unowned true 2 2 2 2).committed := by
  refine ⟨?_, rfl, by decide⟩
  have l1 : Relation.ReflTransGen SimStep initConc
      ⟨.compute, .waitSem, .unowned, true, 1, 1, 1, 1⟩ :=
    Relation.ReflTransGen.tail (Relation.ReflTransGen.tail
      (Relation.ReflTransGen.tail (Relation.ReflTransGen.tail
        (Relation.ReflTransGen.tail (Relation.ReflTransGen.tail
          (Relation.ReflTransGen.tail (Relation.ReflTransGen.tail
            Relation.ReflTransGen.refl
            (SimStep.compute _ _ _ _ _ _ _))
          (SimStep.acquire _ _ _ _ _ _))
        (SimStep.advR _ _ _ _ _ _ _))
      (SimStep.advG _ _ _ _ _ _ _))
    (SimStep.advB _ _ _ _ _ _ _))
    (SimStep.relMutex _ _ _ _ _ _ _))
    (SimStep.giveSem _ _ _ _ _ _ _))
    (SimStep.diag _ _ _ _ _ _ _)
  exact Relation.ReflTransGen.tail (Relation.ReflTransGen.tail
    (Relation.ReflTransGen.tail (Relation.ReflTransGen.tail
      (Relation.ReflTransGen.tail (Relation.ReflTransGen.tail
        (Relation.ReflTransGen.tail (Relation.ReflTransGen.tail l1
          (SimStep.compute _ _ _ _ _ _ _))
        (SimStep.acquire _ _ _ _ _ _))
      (SimStep.advR _ _ _ _ _ _ _))
    (SimStep.advG _ _ _ _ _ _ _))
    (SimStep.advB _ _ _ _ _ _ _))
    (SimStep.relMutex _ _ _ _ _ _ _))
    (SimStep.giveSem _ _ _ _ _ _ _))
    (SimStep.diag _ _ _ _ _ _ _)

/-- Claim C2, amended: if the render task pauses indefinitely *while inside
its mutex-held draw pass*, the simulation blocks at its next mutex-acquire
and never starts another channel-advection commit: along any continuation
made of simulation steps only, the commit count stays fixed and the
simulation never enters the commit region. -/
theorem backpressure_when_render_holds_mutex (s s' : ConcState)
    (hs : Reachable s) (hd : DrawInMutex s.drawLoc)
    (hss : Relation.ReflTransGen SimStep s s') :
    s'.committed = s.committed ∧ ¬ SimInCommit s'.simLoc := by
  obtain ⟨h1, h2, _⟩ := reachable_inv hs
  have hdraw : s.mutex = .byDraw := h2.mpr hd
  have hnot : ¬ SimInCommit s.simLoc := fun hc => by
    have := h1.mpr hc
    rw [hdraw] at this
    exact absurd this (by decide)
  -- invariant along sim-only continuations
  suffices h : s'.mutex = .byDraw ∧ s'.committed = s.committed ∧ ¬ SimInCommit s'.simLoc from
    ⟨h.2.1, h.2.2⟩
  induction hss with
  | refl => exact ⟨hdraw, rfl, hnot⟩
  | tail _ hbc ih =>
    obtain ⟨ihm, ihc, ihl⟩ := ih
    cases hbc <;> simp_all [SimInCommit]

theorem backpressure_when_render_holds_mutex_witness :
    Reachable ⟨.diag, .reading, .byDraw, false, 1, 1, 1, 1⟩ ∧
      DrawInMutex (ConcState.mk .diag .reading .byDraw false 1 1 1 1).drawLoc ∧
      (ConcState.mk .compute .reading .byDraw false 1 1 1 1).committed =
        (ConcState.mk .diag .reading .byDraw false 1 1 1 1).committed :=
  ⟨reachable_demo, Or.inl rfl,
    (backpressure_when_render_holds_mutex
        ⟨.diag, .reading, .byDraw, false, 1, 1, 1, 1⟩
        ⟨.compute, .reading, .byDraw, false, 1, 1, 1, 1⟩
        reachable_demo (Or.inl rfl)
        (Relation.ReflTransGen.single (SimStep.diag _ _ _ _ _ _ _))).1⟩

/-! ## Initial colour sectors (claim C10)

`setup` (`.ino` lines 234-248) colours each cell by the angle
`atan2(i − N_ROWS/2, j − C/2)`: red on `[−π, −π/3)`, green on
`[−π/3, π/3)`, blue otherwise.  The real function `atan2(y, x)` is
`Complex.arg ⟨x, y⟩`; the selector below is the code's branch rewritten in
decidable integer form, and the claim theorem proves it coincides with the
`atan2` sectors. -/

/-- Modelled from the source: the test `atan2(y, x) ∈ [−π, −π/3)` on the
integer grid, in decidable form. -/
def redSel (y x : ℤ) : Prop := y < 0 ∧ (x ≤ 0 ∨ 3 * x ^ 2 < y ^ 2)

/-- Modelled from the source: the test `atan2(y, x) ∈ [−π/3, π/3)` on the
integer grid, in decidable form. -/
def greenSel (y x : ℤ) : Prop := (x = 0 ∧ y = 0) ∨ (0 < x ∧ y ^ 2 < 3 * x ^ 2)

instance (y x : ℤ) : Decidable (redSel y x) := by unfold redSel; infer_instance

instance (y x : ℤ) : Decidable (greenSel y x) := by unfold greenSel; infer_instance

/-- The colour triple `(red, green, blue)` that `setup` writes at interior
cell `(i, j)` (`.ino` lines 237-244): all channels start at `0`, then
exactly one of the three sector branches sets its channel to `1`. -/
def initColors (i j : ℤ) : ℚ × ℚ × ℚ :=
  if redSel (i - N_ROWS / 2) (j - N_COLS / 2) then (1, 0, 0)
  else if greenSel (i - N_ROWS / 2) (j - N_COLS / 2) then (0, 1, 0)
  else (0, 0, 1)

lemma arctan_sqrt_three : Real.arctan (Real.sqrt 3) = Real.pi / 3 := by
  rw [← Real.tan_pi_div_three]
  exact Real.arctan_tan (by linarith [Real.pi_pos]) (by linarith [Real.pi_pos])

lemma sq_eq_three_sq_int {x y : ℤ} (h : y ^ 2 = 3 * x ^ 2) : x = 0 ∧ y = 0 := by
  by_cases hx : x = 0
  · subst hx
    refine ⟨rfl, ?_⟩
    have hy : y ^ 2 = 0 := by linarith
    exact pow_eq_zero_iff (two_ne_zero) |>.mp hy
  · exfalso
    have h3 : Irrational (Real.sqrt ((3 : ℕ) : ℝ)) := by
      rw [irrational_sqrt_natCast_iff]
      rintro ⟨r, hr⟩
      rcases Nat.lt_or_ge r 2 with hr2 | hr2
      · interval_cases r <;> omega
      · nlinarith
    apply h3
    have hx' : (x : ℝ) ≠ 0 := Int.cast_ne_zero.mpr hx
    refine ⟨|(y : ℚ) / (x : ℚ)|, ?_⟩
    have hsq : ((y : ℝ) / (x : ℝ)) ^ 2 = 3 := by
      field_simp
      exact_mod_cast h
    have hcast : ((|(y : ℚ) / (x : ℚ)| : ℚ) : ℝ) = |(y : ℝ) / (x : ℝ)| := by
      push_cast
      rfl
    rw [hcast, ← Real.sqrt_sq_eq_abs, hsq]
    norm_num

/-- For a point with positive real part, the argument is the arctangent of
the slope. -/
lemma arg_mk_of_re_pos {x y : ℤ} (hx : 0 < x) :
    Complex.arg ⟨(x : ℝ), (y : ℝ)⟩ = Real.arctan ((y : ℝ) / (x : ℝ)) := by
  have hre : (0 : ℝ) < (Complex.mk (x : ℝ) (y : ℝ)).re := by
    show (0 : ℝ) < (x : ℝ)
    exact_mod_cast hx
  have h1 : Complex.arg ⟨(x : ℝ), (y : ℝ)⟩ ≤ Real.pi / 2 :=
    Complex.arg_le_pi_div_two_iff.mpr (Or.inl hre.le)
  have h1' : Complex.arg ⟨(x : ℝ), (y : ℝ)⟩ ≠ Real.pi / 2 := by
    intro h
    exact hre.ne' (Complex.arg_eq_pi_div_two_iff.mp h).1
  have h2 : -(Real.pi / 2) ≤ Complex.arg ⟨(x : ℝ), (y : ℝ)⟩ :=
    Complex.neg_pi_div_two_le_arg_iff.mpr (Or.inl hre.le)
  have h2' : Complex.arg ⟨(x : ℝ), (y : ℝ)⟩ ≠ -(Real.pi / 2) := by
    intro h
    exact hre.ne' (Complex.arg_eq_neg_pi_div_two_iff.mp h).1
  have ht := Complex.tan_arg (Complex.mk (x : ℝ) (y : ℝ))
  have hq : (y : ℝ) / (x : ℝ) =
      (Complex.mk (x : ℝ) (y : ℝ)).im / (Complex.mk (x : ℝ) (y : ℝ)).re := rfl
  rw [hq, ← ht, Real.arctan_tan (lt_of_le_of_ne h2 (Ne.symm h2')) (lt_of_le_of_ne h1 h1')]

lemma sqrt3_pos : 0 < Real.sqrt 3 := Real.sqrt_pos.mpr (by norm_num)

lemma sq_lt_three_sq_iff {a b : ℝ} (hb : 0 < b) :
    a ^ 2 < 3 * b ^ 2 ↔ -(Real.sqrt 3 * b) < a ∧ a < Real.sqrt 3 * b := by
  have hs : Real.sqrt 3 ^ 2 = 3 := Real.sq_sqrt (by norm_num)
  have hsb : 0 < Real.sqrt 3 * b := mul_pos sqrt3_pos hb
  constructor
  · intro h
    constructor <;> nlinarith
  · rintro ⟨h1, h2⟩
    nlinarith

lemma three_sq_lt_iff {a b : ℝ} (hb : 0 < b) (ha : a < 0) :
    3 * b ^ 2 < a ^ 2 ↔ a < -(Real.sqrt 3 * b) := by
  have hs : Real.sqrt 3 ^ 2 = 3 := Real.sq_sqrt (by norm_num)
  have hsb : 0 < Real.sqrt 3 * b := mul_pos sqrt3_pos hb
  constructor <;> intro h <;> nlinarith

/-- The red sector test: on integer coordinates, `atan2(y, x) < −π/3` is
the decidable condition of `redSel`. -/
lemma arg_lt_neg_pi_div_three_iff (x y : ℤ) :
    Complex.arg ⟨(x : ℝ), (y : ℝ)⟩ < -(Real.pi / 3) ↔
      (y < 0 ∧ (x ≤ 0 ∨ 3 * x ^ 2 < y ^ 2)) := by
  constructor
  · intro h
    have hargneg : Complex.arg ⟨(x : ℝ), (y : ℝ)⟩ < 0 := by linarith [Real.pi_pos]
    have hyR : ((⟨(x : ℝ), (y : ℝ)⟩ : ℂ)).im < 0 := Complex.arg_neg_iff.mp hargneg
    have hy : y < 0 := by
      have hyR' : (y : ℝ) < 0 := hyR
      exact_mod_cast hyR'
    refine ⟨hy, ?_⟩
    by_cases hx : 0 < x
    · right
      rw [arg_mk_of_re_pos hx] at h
      have h3 : Real.arctan (-(Real.sqrt 3)) = -(Real.pi / 3) := by
        rw [Real.arctan_neg, arctan_sqrt_three]
      rw [← h3] at h
      have hlt : (y : ℝ) / (x : ℝ) < -(Real.sqrt 3) :=
        Real.arctan_strictMono.lt_iff_lt.mp h
      have hxR : (0 : ℝ) < (x : ℝ) := by exact_mod_cast hx
      rw [div_lt_iff hxR] at hlt
      have hyR' : (y : ℝ) < 0 := by exact_mod_cast hy
      have h32 : 3 * (x : ℝ) ^ 2 < (y : ℝ) ^ 2 :=
        (three_sq_lt_iff hxR hyR').mpr (by linarith)
      exact_mod_cast h32
    · left; omega
  · rintro ⟨hy, hrest⟩
    have hyR : (y : ℝ) < 0 := by exact_mod_cast hy
    by_cases hx : 0 < x
    · have hsq : 3 * x ^ 2 < y ^ 2 := by
        rcases hrest with hx' | hsq
        · omega
        · exact hsq
      have hxR : (0 : ℝ) < (x : ℝ) := by exact_mod_cast hx
      have hsqR : 3 * (x : ℝ) ^ 2 < (y : ℝ) ^ 2 := by exact_mod_cast hsq
      have hyx : (y : ℝ) < -(Real.sqrt 3 * (x : ℝ)) := (three_sq_lt_iff hxR hyR).mp hsqR
      rw [arg_mk_of_re_pos hx]
      have h3 : Real.arctan (-(Real.sqrt 3)) = -(Real.pi / 3) := by
        rw [Real.arctan_neg, arctan_sqrt_three]
      rw [← h3]
      apply Real.arctan_strictMono
      rw [div_lt_iff hxR]
      linarith
    · push_neg at hx
      rcases eq_or_lt_of_le hx with hx0 | hxneg
      · have harg : Complex.arg ⟨(x : ℝ), (y : ℝ)⟩ = -(Real.pi / 2) :=
          Complex.arg_eq_neg_pi_div_two_iff.mpr
            ⟨(by exact_mod_cast hx0 : ((x : ℝ)) = 0), hyR⟩
        rw [harg]
        linarith [Real.pi_pos]
      · have hxR : (x : ℝ) < 0 := by exact_mod_cast hxneg
        have hnot : ¬ (-(Real.pi / 2) ≤ Complex.arg ⟨(x : ℝ), (y : ℝ)⟩) := by
          rw [Complex.neg_pi_div_two_le_arg_iff]
          push_neg
          exact ⟨hxR, hyR⟩
        have := not_le.mp hnot
        linarith [Real.pi_pos]

/-- The green sector test: on integer coordinates,
`atan2(y, x) ∈ [−π/3, π/3)` is the decidable condition of `greenSel`. -/
lemma arg_in_green_sector_iff (x y : ℤ) :
    (-(Real.pi / 3) ≤ Complex.arg ⟨(x : ℝ), (y : ℝ)⟩ ∧
        Complex.arg ⟨(x : ℝ), (y : ℝ)⟩ < Real.pi / 3) ↔
      ((x = 0 ∧ y = 0) ∨ (0 < x ∧ y ^ 2 < 3 * x ^ 2)) := by
  constructor
  · rintro ⟨hge, hlt⟩
    by_cases hx : 0 < x
    · right
      refine ⟨hx, ?_⟩
      rw [arg_mk_of_re_pos hx] at hge hlt
      have hxR : (0 : ℝ) < (x : ℝ) := by exact_mod_cast hx
      have h3 : Real.arctan (-(Real.sqrt 3)) = -(Real.pi / 3) := by
        rw [Real.arctan_neg, arctan_sqrt_three]
      have hu : (y : ℝ) / (x : ℝ) < Real.sqrt 3 := by
        apply Real.arctan_strictMono.lt_iff_lt.mp
        rwa [arctan_sqrt_three]
      have hl : -(Real.sqrt 3) ≤ (y : ℝ) / (x : ℝ) := by
        apply Real.arctan_strictMono.le_iff_le.mp
        rwa [h3]
      rw [div_lt_iff hxR] at hu
      rw [le_div_iff hxR] at hl
      have hs : Real.sqrt 3 ^ 2 = 3 := Real.sq_sqrt (by norm_num)
      have hsb : 0 < Real.sqrt 3 * (x : ℝ) := mul_pos sqrt3_pos hxR
      have hleR : (y : ℝ) ^ 2 ≤ 3 * (x : ℝ) ^ 2 := by nlinarith
      have hleZ : y ^ 2 ≤ 3 * x ^ 2 := by exact_mod_cast hleR
      rcases lt_or_eq_of_le hleZ with h | h
      · exact h
      · obtain ⟨hx0, _⟩ := sq_eq_three_sq_int h
        omega
    · left
      push_neg at hx
      rcases eq_or_lt_of_le hx with hx0 | hxneg
      · rcases lt_trichotomy y 0 with hy | hy | hy
        · exfalso
          have harg : Complex.arg ⟨(x : ℝ), (y : ℝ)⟩ = -(Real.pi / 2) :=
            Complex.arg_eq_neg_pi_div_two_iff.mpr
              ⟨(by exact_mod_cast hx0 : ((x : ℝ)) = 0),
                (by exact_mod_cast hy : ((y : ℝ)) < 0)⟩
          rw [harg] at hge
          linarith [Real.pi_pos]
        · exact ⟨hx0, hy⟩
        · exfalso
          have harg : Complex.arg ⟨(x : ℝ), (y : ℝ)⟩ = Real.pi / 2 :=
            Complex.arg_eq_pi_div_two_iff.mpr
              ⟨(by exact_mod_cast hx0 : ((x : ℝ)) = 0),
                (by exact_mod_cast hy : (0 : ℝ) < (y : ℝ))⟩
          rw [harg] at hlt
          linarith [Real.pi_pos]
      · exfalso
        have hxR : (x : ℝ) < 0 := by exact_mod_cast hxneg
        rcases lt_trichotomy y 0 with hy | hy | hy
        · have hyR : (y : ℝ) < 0 := by exact_mod_cast hy
          have hnot : ¬ (-(Real.pi / 2) ≤ Complex.arg ⟨(x : ℝ), (y : ℝ)⟩) := by
            rw [Complex.neg_pi_div_two_le_arg_iff]
            push_neg
            exact ⟨hxR, hyR⟩
          have := not_le.mp hnot
          linarith [Real.pi_pos]
        · have harg : Complex.arg ⟨(x : ℝ), (y : ℝ)⟩ = Real.pi :=
            Complex.arg_eq_pi_iff.mpr
              ⟨hxR, (by exact_mod_cast hy : ((y : ℝ)) = 0)⟩
          rw [harg] at hlt
          linarith [Real.pi_pos]
        · have hyR : (0 : ℝ) < (y : ℝ) := by exact_mod_cast hy
          have hnot : ¬ (Complex.arg ⟨(x : ℝ), (y : ℝ)⟩ ≤ Real.pi / 2) := by
            rw [Complex.arg_le_pi_div_two_iff]
            push_neg
            exact ⟨hxR, hyR.le⟩
          have := not_le.mp hnot
          linarith [Real.pi_pos]
  · rintro (⟨hx0, hy0⟩ | ⟨hx, hsq⟩)
    · have hz : (⟨(x : ℝ), (y : ℝ)⟩ : ℂ) = 0 := by
        subst hx0
        subst hy0
        apply Complex.ext <;> simp
      rw [hz, Complex.arg_zero]
      constructor
      · linarith [Real.pi_pos]
      · linarith [Real.pi_pos]
    · rw [arg_mk_of_re_pos hx]
      have hxR : (0 : ℝ) < (x : ℝ) := by exact_mod_cast hx
      have hsqR : (y : ℝ) ^ 2 < 3 * (x : ℝ) ^ 2 := by exact_mod_cast hsq
      obtain ⟨hlb, hub⟩ := (sq_lt_three_sq_iff hxR).mp hsqR
      constructor
      · have hdiv : -(Real.sqrt 3) < (y : ℝ) / (x : ℝ) := by
          rw [lt_div_iff hxR]
          linarith
        have harct := Real.arctan_strictMono hdiv
        rw [Real.arctan_neg, arctan_sqrt_three] at harct
        linarith
      · have hdiv : (y : ℝ) / (x : ℝ) < Real.sqrt 3 := by
          rw [div_lt_iff hxR]
          linarith
        have harct := Real.arctan_strictMono hdiv
        rw [arctan_sqrt_three] at harct
        linarith

/-- Claim C10: at initialization, every interior cell gets exactly one
colour channel set to `1` and the other two to `0`, and the channel is the
`atan2(i − R/2, j − C/2)` sector of the code: red on `[−π, −π/3)`, green on
`[−π/3, π/3)`, blue otherwise (equivalently `[π/3, π]`, as the angle lies
in `(−π, π]`). -/
theorem init_sector_partition (i j : ℤ)
    (h0i : 0 ≤ i) (h1i : i < N_ROWS) (h0j : 0 ≤ j) (h1j : j < N_COLS) :
    (initColors i j = (1, 0, 0) ∨ initColors i j = (0, 1, 0) ∨
        initColors i j = (0, 0, 1)) ∧
    (initColors i j = (1, 0, 0) ↔
      Complex.arg ⟨((j - N_COLS / 2 : ℤ) : ℝ), ((i - N_ROWS / 2 : ℤ) : ℝ)⟩ ∈
        Set.Ico (-Real.pi) (-(Real.pi / 3))) ∧
    (initColors i j = (0, 1, 0) ↔
      Complex.arg ⟨((j - N_COLS / 2 : ℤ) : ℝ), ((i - N_ROWS / 2 : ℤ) : ℝ)⟩ ∈
        Set.Ico (-(Real.pi / 3)) (Real.pi / 3)) ∧
    (initColors i j = (0, 0, 1) ↔
      Complex.arg ⟨((j - N_COLS / 2 : ℤ) : ℝ), ((i - N_ROWS / 2 : ℤ) : ℝ)⟩ ∈
        Set.Icc (Real.pi / 3) Real.pi) := by
  have hred := arg_lt_neg_pi_div_three_iff (j - N_COLS / 2) (i - N_ROWS / 2)
  have hgreen := arg_in_green_sector_iff (j - N_COLS / 2) (i - N_ROWS / 2)
  have hlo := Complex.neg_pi_lt_arg
    (⟨((j - N_COLS / 2 : ℤ) : ℝ), ((i - N_ROWS / 2 : ℤ) : ℝ)⟩ : ℂ)
  have hhi := Complex.arg_le_pi
    (⟨((j - N_COLS / 2 : ℤ) : ℝ), ((i - N_ROWS / 2 : ℤ) : ℝ)⟩ : ℂ)
  constructor
  · unfold initColors
    split_ifs <;> simp
  refine ⟨?_, ?_, ?_⟩
  · constructor
    · intro h
      have hr : redSel (i - N_ROWS / 2) (j - N_COLS / 2) := by
        by_contra hcon
        unfold initColors at h
        rw [if_neg hcon] at h
        split_ifs at h <;> simp_all
      exact ⟨hlo.le, hred.mpr hr⟩
    · rintro ⟨_, hmem⟩
      have hr : redSel (i - N_ROWS / 2) (j - N_COLS / 2) := hred.mp hmem
      unfold initColors
      rw [if_pos hr]
  · constructor
    · intro h
      have hng : ¬ redSel (i - N_ROWS / 2) (j - N_COLS / 2) ∧
          greenSel (i - N_ROWS / 2) (j - N_COLS / 2) := by
        unfold initColors at h
        split_ifs at h with ha hb
        · simp_all
        · exact ⟨ha, hb⟩
        · simp_all
      obtain ⟨hnr, hg⟩ := hng
      have hmem := hgreen.mpr hg
      exact ⟨hmem.1, hmem.2⟩
    · intro hmem
      have hg : greenSel (i - N_ROWS / 2) (j - N_COLS / 2) := hgreen.mp ⟨hmem.1, hmem.2⟩
      have hnr : ¬ redSel (i - N_ROWS / 2) (j - N_COLS / 2) := by
        intro hr
        have := hred.mpr hr
        have := hmem.1
        linarith
      unfold initColors
      rw [if_neg hnr, if_pos hg]
  · constructor
    · intro h
      have hnrg : ¬ redSel (i - N_ROWS / 2) (j - N_COLS / 2) ∧
          ¬ greenSel (i - N_ROWS / 2) (j - N_COLS / 2) := by
        unfold initColors at h
        split_ifs at h with ha hb
        · simp_all
        · simp_all
        · exact ⟨ha, hb⟩
      obtain ⟨hnr, hng⟩ := hnrg
      have h1 : ¬ (Complex.arg ⟨((j - N_COLS / 2 : ℤ) : ℝ), ((i - N_ROWS / 2 : ℤ) : ℝ)⟩ <
          -(Real.pi / 3)) := fun hc => hnr (hred.mp hc)
      have h2 : ¬ (-(Real.pi / 3) ≤ Complex.arg
            ⟨((j - N_COLS / 2 : ℤ) : ℝ), ((i - N_ROWS / 2 : ℤ) : ℝ)⟩ ∧
          Complex.arg ⟨((j - N_COLS / 2 : ℤ) : ℝ), ((i - N_ROWS / 2 : ℤ) : ℝ)⟩ <
            Real.pi / 3) := fun hc => hng (hgreen.mp hc)
      push_neg at h1 h2
      exact ⟨h2 h1, hhi⟩
    · rintro ⟨hge, _⟩
      have hnr : ¬ redSel (i - N_ROWS / 2) (j - N_COLS / 2) := by
        intro hr
        have := hred.mpr hr
        linarith [Real.pi_pos]
      have hng : ¬ greenSel (i - N_ROWS / 2) (j - N_COLS / 2) := by
        intro hg
        have := (hgreen.mpr hg).2
        linarith [Real.pi_pos]
      unfold initColors
      rw [if_neg hnr, if_neg hng]

theorem init_sector_partition_witness :
    (0 : ℤ) ≤ 0 ∧ (0 : ℤ) < N_ROWS ∧
      (initColors 0 0 = (1, 0, 0) ∨ initColors 0 0 = (0, 1, 0) ∨
        initColors 0 0 = (0, 0, 1)) :=
  ⟨le_refl 0, by decide,
    (init_sector_partition 0 0 (by decide) (by decide) (by decide) (by decide)).1⟩

end Fluid
